import Mathlib

/-!
# Verification of the `keyword-count` analyzer

A shallow embedding of `src/analyzer.js` (the `Analyzer` prototype) together
with proofs of the specified properties of the keyword-counting pipeline.

Modelling conventions:
* JavaScript objects used as string-keyed maps (`map`, `resultsMap`) are
  insertion-ordered association lists `List (String × α)`; property
  assignment (`jsSet`) updates an existing key in place and appends a fresh
  key, matching JS object key insertion order for non-index string keys.
* A numeric cell of a frequency map is a `JVal := Option Nat`: `some n` is
  the JS number `n`, `none` is `NaN` (which arises from `undefined + 1`
  when code increments a key that is not present in the object).
* Promises are outcomes `Except JsError α`; a promise that never settles is
  `Option.none` at the call sites where that can happen.
* Effects of the filesystem, of the external `grep1` collaborator, of
  `mkdirp` and of `JSON.parse` on the keyword file are passed in as explicit
  outcome arguments, since the analyzer treats them as black boxes.
* `String.toUpperCase` is modelled per-character by `Char.toUpper`
  (the keywords and lines of the specified scenarios are ASCII).
-/

namespace KeywordCount

/-- A JS numeric cell: `some n` is the number `n`, `none` is `NaN`. -/
abbrev JVal := Option Nat

/-- A JS object used as a string-keyed, insertion-ordered map. -/
abbrev JsObj (α : Type) := List (String × α)

/-- Property read `m[k]`: first binding of `k`, if any. -/
def jsLookup {α : Type} : JsObj α → String → Option α
  | [], _ => none
  | (key, v) :: rest, k => if key = k then some v else jsLookup rest k

/-- Property write `m[k] = v`: update in place if present, else append. -/
def jsSet {α : Type} : JsObj α → String → α → JsObj α
  | [], k, v => [(k, v)]
  | (key, w) :: rest, k, v =>
      if key = k then (key, v) :: rest else (key, w) :: jsSet rest k v

/-- `Object.keys(m)` in iteration order. -/
def jsKeys {α : Type} (m : JsObj α) : List String := m.map Prod.fst

/-- Map a function over the values of an association object. -/
def mapVals {α β : Type} (f : α → β) (m : JsObj α) : JsObj β :=
  m.map (fun p => (p.1, f p.2))

/-- `String.prototype.toUpperCase`, per character (ASCII-faithful). -/
def jsToUpper (s : String) : String := String.mk (s.data.map Char.toUpper)

/-- `String.prototype.split(sep)` for a one-character separator, on the
underlying character list: `"".split(sep) = [""]`, and a trailing separator
yields a trailing empty string, as in JS. -/
def splitOnChar (sep : Char) : List Char → List (List Char)
  | [] => [[]]
  | c :: cs =>
      match splitOnChar sep cs with
      | l :: ls => if c = sep then [] :: l :: ls else (c :: l) :: ls
      | [] => [[]]

/-- `data.split("\n")` (src/analyzer.js:184). -/
def jsSplitNewline (s : String) : List String :=
  (splitOnChar '\n' s.data).map String.mk

/-- Error taxonomy of the analyzer (spec §7), tagging each rejection source. -/
inductive JsError : Type where
  /-- `new Error("Keyword list not provided")` — `MissingInputError`. -/
  | missingInput : JsError
  /-- `new Error("Keyword JSON file is empty")` — `EmptyFileError`. -/
  | emptyFile : JsError
  /-- a filesystem failure (`lstat`/`readFile`/`readdir`) — `NotFoundError`. -/
  | notFound (msg : String) : JsError
  /-- the `grep1` collaborator emitted an `error` event — `ScanError`. -/
  | scanError (msg : String) : JsError
  /-- `JSON.parse` failure on the keyword file — `ParseError`. -/
  | parseError (msg : String) : JsError
  /-- failure of `mkdirp` on the output directory. -/
  | mkdirFailed (msg : String) : JsError
  /-- failure of `fs.open(outputPath, "w+")`. -/
  | openFailed (msg : String) : JsError
deriving DecidableEq, Repr

/-- `Analyzer.prototype.getKey` (src/analyzer.js:239-247): in case-sensitive
mode return the word itself; otherwise the first key of `map` (in
`Object.keys` order) whose uppercase form equals the word's, or none. -/
def getKey (ignoreCase : Bool) (word : String) (map : JsObj JVal) : Option String :=
  if !ignoreCase then some word
  else ((jsKeys map).filter (fun key => jsToUpper key == jsToUpper word)).head?

/-- The zero-initialization loop of `mapper` (src/analyzer.js:188-190):
`keywords.forEach(word => map[word] = 0)`. -/
def zeroInit (keywords : List String) : JsObj JVal :=
  keywords.foldl (fun m word => jsSet m word (some 0)) []

/-- `map[key] + 1` in JS: a number increments; `NaN + 1` and
`undefined + 1` are `NaN`. -/
def jsAddOne : Option JVal → JVal
  | some (some n) => some (n + 1)
  | some none => none
  | none => none

/-- One iteration of the `split.forEach` loop of `mapper`
(src/analyzer.js:192-202): skip falsy (empty) words, resolve the word with
`getKey`, and when the key is truthy do `map[key] = map[key] + 1`. -/
def mapperStep (ignoreCase : Bool) (m : JsObj JVal) (word : String) : JsObj JVal :=
  if word = "" then m
  else
    match getKey ignoreCase word m with
    | some key => if key = "" then m else jsSet m key (jsAddOne (jsLookup m key))
    | none => m

/-- The frequency map built by one `mapper._transform` call
(src/analyzer.js:182-202) from the collaborator output `data` for a file:
zero-initialize per keyword, then fold the per-line loop over
`data.split("\n")`. -/
def mapperMap (keywords : List String) (ignoreCase : Bool) (data : String) : JsObj JVal :=
  (jsSplitNewline data).foldl (mapperStep ignoreCase) (zeroInit keywords)

/-- `parse-filepath(file).name`: the last path segment with its extension
stripped (a leading dot alone does not begin an extension, as in node's
`path.parse`). -/
def parseName (file : String) : String :=
  let base := (splitOnChar '/' file.data).getLastD []
  match base.reverse.findIdx? (· = '.') with
  | none => String.mk base
  | some i =>
      let dotPos := base.length - 1 - i
      if dotPos = 0 then String.mk base else String.mk (base.take dotPos)

/-- The results store `this.resultsMap`: file base name ↦ frequency map. -/
abbrev Store := JsObj (JsObj JVal)

/-- The store side effect of `mapper._transform` (src/analyzer.js:204):
`resultsMap[parsePath(file).name] = map`. -/
def mapperRun (keywords : List String) (ignoreCase : Bool) (store : Store)
    (file data : String) : Store :=
  jsSet store (parseName file) (mapperMap keywords ignoreCase data)

/-- The `keywordsList` configuration value: either a path string (the empty
string stands for the falsy default `''` of an absent option) or a literal
array. -/
inductive KeywordsList : Type where
  | pathStr (path : String) : KeywordsList
  | arr (keywords : List String) : KeywordsList
deriving DecidableEq, Repr

/-- `Analyzer.prototype.getKeywords` (src/analyzer.js:134-154).  A falsy
`keywordsList` rejects with `MissingInputError` without touching the
filesystem; an array resolves as itself; otherwise the file is read
(`readFile` is the `fs.readFileAsync` outcome), empty contents reject with
`EmptyFileError`, and non-empty contents go through `JSON.parse` and the
`keyName` index (`parseJson data keyName`, an external outcome). -/
def getKeywords (kwList : KeywordsList) (keyName : String)
    (readFile : String → Except JsError String)
    (parseJson : String → String → Except JsError (List String)) :
    Except JsError (List String) :=
  match kwList with
  | .pathStr path =>
      if path = "" then .error .missingInput
      else
        match readFile path with
        | .error e => .error e
        | .ok data =>
            if data = "" then .error .emptyFile else parseJson data keyName
  | .arr keywords => .ok keywords

/-- `Promise.all` over already-settled outcomes: resolves with the list of
values when all resolve, otherwise rejects with the first rejection. -/
def promiseAll {α : Type} : List (Except JsError α) → Except JsError (List α)
  | [] => .ok []
  | p :: ps =>
      match p with
      | .error e => .error e
      | .ok a =>
          match promiseAll ps with
          | .error e => .error e
          | .ok rest => .ok (a :: rest)

/-- The settling of `Analyzer.prototype.grepDir` (src/analyzer.js:77-90):
`fs.readdirAsync` either rejects (propagated) or yields the entries, whose
per-entry `grepFile` outcomes are joined with `Promise.all`. -/
def grepDirOutcome (listing : Except JsError (List String))
    (scan : String → Except JsError Unit) : Except JsError Unit :=
  match listing with
  | .error e => .error e
  | .ok files =>
      match promiseAll (files.map scan) with
      | .error e => .error e
      | .ok _ => .ok ()

/-- The store-and-outcome effect of `Analyzer.prototype.grepFile`
(src/analyzer.js:97-126) once the output path is prepared: if the `grep1`
collaborator emits an `error` event the promise rejects with it and the
results store is untouched; otherwise the collaborator's output is piped
through `mapper`, which registers the file's frequency map. -/
def grepFileRun (keywords : List String) (ignoreCase : Bool) (store : Store)
    (file : String) (grepResult : Except JsError String) :
    Store × Except JsError Unit :=
  match grepResult with
  | .error e => (store, .error e)
  | .ok data => (mapperRun keywords ignoreCase store file data, .ok ())

/-- `Analyzer.prototype.prepOutputPath` (src/analyzer.js:219-230): `mkdirp`
on the output directory, then `fs.openAsync(outputPath, "w+")`, with every
failure caught by `.catch(console.error)` (which resolves the promise). -/
def prepOutputPath (mkdirpResult : Except JsError Unit)
    (openResult : Except JsError Unit) : Except JsError Unit :=
  match mkdirpResult with
  | .error _ => .ok ()
  | .ok _ =>
      match openResult with
      | .error _ => .ok ()
      | .ok _ => .ok ()

/-- `Analyzer.prototype.grepFile` including its output-path preparation:
the grep-and-pipe stage runs in `prepOutputPath().then(...)`; were the
preparation to reject, the `.catch(console.error)` around it would swallow
the rejection and the returned promise would never settle (`none`). -/
def grepFile (keywords : List String) (ignoreCase : Bool)
    (mkdirpResult openResult : Except JsError Unit) (store : Store)
    (file : String) (grepResult : Except JsError String) :
    Option (Store × Except JsError Unit) :=
  match prepOutputPath mkdirpResult openResult with
  | .ok _ => some (grepFileRun keywords ignoreCase store file grepResult)
  | .error _ => none

/-- `fs.lstat` classification of the target as used by `analyze`
(src/analyzer.js:62-66): `stats.isFile()`, `stats.isDirectory()`, or
neither (e.g. a symbolic link under `lstat`). -/
inductive FileType : Type where
  | file : FileType
  | directory : FileType
  | other : FileType
deriving DecidableEq, Repr

/-- `Analyzer.prototype.analyze` (src/analyzer.js:48-71) on a fresh
analyzer (`resultsMap = {}`): join `lstat` and `getKeywords` outcomes
(`Promise.all`), dispatch on the target's type — `grepFile` for a file,
`grepDir` for a directory, and nothing at all otherwise — then resolve with
`this.resultsMap`.  `runFile`/`runDir` are the store transformations of the
two scan paths, taking the resolved keywords and the store. -/
def analyze (lstatResult : Except JsError FileType)
    (keywordsResult : Except JsError (List String))
    (runFile runDir : List String → Store → Store × Except JsError Unit) :
    Except JsError Store :=
  match lstatResult with
  | .error e => .error e
  | .ok stats =>
      match keywordsResult with
      | .error e => .error e
      | .ok keywords =>
          let initial : Store := []
          match stats with
          | .file =>
              match runFile keywords initial with
              | (st, .ok _) => .ok st
              | (_, .error e) => .error e
          | .directory =>
              match runDir keywords initial with
              | (st, .ok _) => .ok st
              | (_, .error e) => .error e
          | .other => .ok initial

/-- A directory scan as a sequence of per-file mapper registrations: each
job is a file path together with the collaborator's output for it. -/
def scanJobs (keywords : List String) (ignoreCase : Bool) (store : Store)
    (jobs : List (String × String)) : Store :=
  jobs.foldl (fun st job => mapperRun keywords ignoreCase st job.1 job.2) store

/-! ## Specification-side definitions

These follow the wording of spec §4.2/§4.3 (`LineMatcher`, `FileScanner`)
rather than the source, for the refinement claims: frequency counts are
plain naturals and the increment acts on the resolved map key. -/

/-- Modelled from the spec (§4.2 `LineMatcher`): in case-sensitive mode the
key is the line content itself; in case-insensitive mode it is the first
map key in iteration order whose uppercase form equals the line's, if any. -/
def lineMatcher (ignoreCase : Bool) (line : String)
    (m : List (String × Nat)) : Option String :=
  if ignoreCase then (m.map Prod.fst).find? (fun k => jsToUpper k == jsToUpper line)
  else some line

/-- Modelled from the spec (§4.3): a frequency map with one entry per
configured keyword, initialized to zero. -/
def specZero (keywords : List String) : List (String × Nat) :=
  keywords.foldl (fun m word => jsSet m word 0) []

/-- Modelled from the spec (§4.3): increment the count at `key` by one. -/
def specIncrement (m : List (String × Nat)) (key : String) : List (String × Nat) :=
  jsSet m key ((jsLookup m key).getD 0 + 1)

/-- Modelled from the spec (§4.3): for one emitted line — skipping empty
strings — resolve it via `LineMatcher`; if resolved increment that key's
count by one, if unresolved skip silently. -/
def specScanStep (ignoreCase : Bool) (m : List (String × Nat))
    (line : String) : List (String × Nat) :=
  if line = "" then m
  else
    match lineMatcher ignoreCase line m with
    | some key => specIncrement m key
    | none => m

/-- Modelled from the spec (§4.3 `FileScanner`): zero-initialize, then fold
the per-line scan over the collaborator output split on newline. -/
def specFreqMap (keywords : List String) (ignoreCase : Bool)
    (output : String) : List (String × Nat) :=
  (jsSplitNewline output).foldl (specScanStep ignoreCase) (specZero keywords)

/-- The line-filtering collaborator's contract (spec §6): it emits matched
substrings of the alternation pattern over the keywords, so in
case-sensitive mode every non-empty emitted line is literally one of the
configured keywords. -/
def CollaboratorOutput (keywords : List String) (ignoreCase : Bool)
    (data : String) : Prop :=
  ignoreCase = false → ∀ w ∈ jsSplitNewline data, w ≠ "" → w ∈ keywords

/-! ## The report serialization

`Analyzer.prototype.stringifier` (src/analyzer.js:160-170) pushes
`JSON.stringify(data, null, 4)` of the results store, so the renderer below
follows ECMA-262 `JSON.stringify` with a four-space gap on the two-level
report structure: `NaN` serializes as `null`, strings are quoted with the
standard escapes, and each nesting level indents by four more spaces. -/

/-- The decimal digit characters. -/
def digitChar : Nat → Char
  | 0 => '0' | 1 => '1' | 2 => '2' | 3 => '3' | 4 => '4'
  | 5 => '5' | 6 => '6' | 7 => '7' | 8 => '8' | _ => '9'

/-- Decimal rendering loop (most significant digit first); the fuel is an
upper bound on the digit count and `natChars` supplies a sufficient one. -/
def natCharsGo : Nat → Nat → List Char → List Char
  | 0, _, acc => acc
  | fuel + 1, n, acc =>
      if n < 10 then digitChar n :: acc
      else natCharsGo fuel (n / 10) (digitChar (n % 10) :: acc)

/-- The decimal digits of `n`, as `JSON.stringify` writes a natural. -/
def natChars (n : Nat) : List Char := natCharsGo (n + 1) n []

/-- Lowercase hexadecimal digit characters, as in `JSON.stringify`'s
`\u00..` escapes. -/
def hexDig : Nat → Char
  | 0 => '0' | 1 => '1' | 2 => '2' | 3 => '3' | 4 => '4'
  | 5 => '5' | 6 => '6' | 7 => '7' | 8 => '8' | 9 => '9'
  | 10 => 'a' | 11 => 'b' | 12 => 'c' | 13 => 'd' | 14 => 'e' | _ => 'f'

/-- `JSON.stringify`'s quoting of one string character: the named escapes,
`\u00xx` for the remaining control characters, and everything else as
itself. -/
def escapeChar (c : Char) : List Char :=
  match c with
  | '\t' => '\\' :: ['t']
  | '\n' => '\\' :: ['n']
  | '\r' => '\\' :: ['r']
  | '"' => '\\' :: ['"']
  | '\\' => '\\' :: ['\\']
  | '\x0c' => '\\' :: ['f']
  | '\x08' => '\\' :: ['b']
  | c =>
      if c.toNat < 32 then
        '\\' :: 'u' :: '0' :: '0' :: hexDig (c.toNat / 16) :: [hexDig (c.toNat % 16)]
      else [c]

/-- String-body quoting, character by character. -/
def escapeList : List Char → List Char
  | [] => []
  | c :: cs => escapeChar c ++ escapeList cs

/-- A JSON string token for `s`. -/
def renderString (s : String) : List Char :=
  '"' :: (escapeList s.data ++ ['"'])

/-- A frequency-map cell as JSON: a decimal numeral, or `null` for `NaN`. -/
def renderJVal : JVal → List Char
  | some n => natChars n
  | none => ['n', 'u', 'l', 'l']

/-- One `"key": value` member at the given indentation. -/
def renderEntry {α : Type} (pad : List Char) (renderVal : α → List Char)
    (k : String) (v : α) : List Char :=
  pad ++ renderString k ++ ':' :: ' ' :: renderVal v

/-- The second and later members, each preceded by `",\n" ++ pad`. -/
def renderEntriesTail {α : Type} (pad : List Char) (renderVal : α → List Char) :
    List (String × α) → List Char
  | [] => []
  | (k, v) :: rest =>
      ',' :: '\n' :: (renderEntry pad renderVal k v ++
        renderEntriesTail pad renderVal rest)

/-- An object whose members sit at indentation `pad` and whose closing brace
sits at indentation `closePad`; `{}` when empty — exactly the shape of
`JSON.stringify(obj, null, 4)` at the corresponding depth. -/
def renderObj {α : Type} (pad closePad : List Char) (renderVal : α → List Char) :
    List (String × α) → List Char
  | [] => ['{', '}']
  | (k, v) :: rest =>
      '{' :: '\n' :: (renderEntry pad renderVal k v ++
        (renderEntriesTail pad renderVal rest ++ '\n' :: (closePad ++ ['}'])))

/-- The serialized report: `JSON.stringify(resultsMap, null, 4)`, files at
indentation 4 and keyword counts at indentation 8. -/
def renderReport (store : Store) : List Char :=
  renderObj (List.replicate 4 ' ') []
    (fun fm => renderObj (List.replicate 8 ' ') (List.replicate 4 ' ') renderJVal fm)
    store

/-- The text pushed by `Analyzer.prototype.stringifier` for a results
store. -/
def stringifier (store : Store) : String := String.mk (renderReport store)

/-! ## A JSON reader for the report grammar

Modelled from the spec (§8 round-trip): `JSON.parse` is external to the
repository, so parsing is modelled by a standard recursive-descent reader
of the report grammar — insignificant whitespace between tokens, quoted
keys with the standard escapes, `null` or decimal-numeral cells, and
last-wins member insertion (`jsSet`) exactly as `JSON.parse` builds a JS
object. -/

/-- JSON insignificant whitespace. -/
def isWsChar (c : Char) : Bool :=
  c == ' ' || c == '\n' || c == '\t' || c == '\r'

/-- Drop leading insignificant whitespace. -/
def skipWs : List Char → List Char
  | [] => []
  | c :: cs => if isWsChar c then skipWs cs else c :: cs

/-- Decimal digit test. -/
def isDigitChar (c : Char) : Bool := '0' ≤ c && c ≤ '9'

/-- Split off the longest leading run of decimal digits. -/
def takeDigits : List Char → List Char × List Char
  | [] => ([], [])
  | c :: cs =>
      if isDigitChar c then
        let (ds, rest) := takeDigits cs
        (c :: ds, rest)
      else ([], c :: cs)

/-- The value of a digit run, most significant first. -/
def digitsToNat (ds : List Char) : Nat :=
  ds.foldl (fun acc c => acc * 10 + (c.toNat - '0'.toNat)) 0

/-- The value of one hexadecimal digit character, if it is one. -/
def hexVal (c : Char) : Option Nat :=
  if isDigitChar c then some (c.toNat - '0'.toNat)
  else if 'a' ≤ c && c ≤ 'f' then some (10 + (c.toNat - 'a'.toNat))
  else if 'A' ≤ c && c ≤ 'F' then some (10 + (c.toNat - 'A'.toNat))
  else none

/-- The code point denoted by a `\uXXXX` escape's four digits. -/
def hex4 (a b c d : Char) : Option Nat :=
  match hexVal a, hexVal b, hexVal c, hexVal d with
  | some va, some vb, some vc, some vd =>
      some (va * 4096 + vb * 256 + vc * 16 + vd)
  | _, _, _, _ => none

/-- The character denoted by a single-letter escape, if legal. -/
def escDecode : Char → Option Char
  | '"' => some '"'
  | '\\' => some '\\'
  | '/' => some '/'
  | 'b' => some '\x08'
  | 'f' => some '\x0c'
  | 'n' => some '\n'
  | 'r' => some '\r'
  | 't' => some '\t'
  | _ => none

/-- Read a string body up to its closing quote, undoing the escapes. -/
def parseStringBody (acc : List Char) : List Char → Option (String × List Char)
  | [] => none
  | '"' :: rest => some (String.mk acc.reverse, rest)
  | '\\' :: 'u' :: a :: b :: c :: d :: rest =>
      match hex4 a b c d with
      | some n => parseStringBody (Char.ofNat n :: acc) rest
      | none => none
  | '\\' :: e :: rest =>
      match escDecode e with
      | some ch => parseStringBody (ch :: acc) rest
      | none => none
  | ['\\'] => none
  | c :: rest => parseStringBody (c :: acc) rest

/-- Read a frequency-map cell: `null`, or a decimal numeral. -/
def parseJVal (cs : List Char) : Option (JVal × List Char) :=
  match cs with
  | 'n' :: 'u' :: 'l' :: 'l' :: rest => some (none, rest)
  | _ =>
      match takeDigits cs with
      | ([], _) => none
      | (ds, rest) => some (some (digitsToNat ds), rest)

/-- Read the members of a non-empty object, accumulating them with
last-wins property assignment; the fuel bounds the member count. -/
def parseEntries {α : Type} (parseVal : List Char → Option (α × List Char)) :
    Nat → JsObj α → List Char → Option (JsObj α × List Char)
  | 0, _, _ => none
  | fuel + 1, acc, cs =>
      match skipWs cs with
      | '"' :: body =>
          match parseStringBody [] body with
          | some (k, rest1) =>
              match skipWs rest1 with
              | ':' :: rest2 =>
                  match parseVal (skipWs rest2) with
                  | some (v, rest3) =>
                      match skipWs rest3 with
                      | ',' :: rest4 => parseEntries parseVal fuel (jsSet acc k v) rest4
                      | '}' :: rest4 => some (jsSet acc k v, rest4)
                      | _ => none
                  | none => none
              | _ => none
          | none => none
      | _ => none

/-- Read one object: `{}`, or a brace-delimited member list. -/
def parseObject {α : Type} (parseVal : List Char → Option (α × List Char))
    (fuel : Nat) (cs : List Char) : Option (JsObj α × List Char) :=
  match skipWs cs with
  | '{' :: rest =>
      match skipWs rest with
      | '}' :: rest2 => some ([], rest2)
      | _ => parseEntries parseVal fuel [] rest
  | _ => none

/-- `JSON.parse` of a serialized report: the two-level object, demanding
that only whitespace follows. -/
def parseReport (s : String) : Option Store :=
  match parseObject (fun cs => parseObject parseJVal (cs.length + 1) cs)
      (s.data.length + 1) s.data with
  | some (store, rest) => if skipWs rest = [] then some store else none
  | none => none

/-- Sanity check of the renderer against the exact text
`JSON.stringify(·, null, 4)` produces for a two-file store. -/
theorem stringifier_sample_format :
    stringifier [("foo", [("Alice", some 2), ("mad", some 0)]), ("bar", [])] =
      "\x7b\n    \"foo\": \x7b\n        \"Alice\": 2,\n        \"mad\": 0\n    \x7d,\n    \"bar\": \x7b\x7d\n\x7d" := by
  rfl

/-! ## Association-object lemmas -/

section JsObjLemmas

variable {α β : Type}

theorem jsLookup_jsSet_self (m : JsObj α) (k : String) (v : α) :
    jsLookup (jsSet m k v) k = some v := by
  induction m with
  | nil => simp [jsSet, jsLookup]
  | cons p rest ih =>
      obtain ⟨key, w⟩ := p
      by_cases h : key = k <;> simp [jsSet, jsLookup, h, ih]

theorem jsLookup_jsSet_ne (m : JsObj α) {k k2 : String} (v : α) (h : k ≠ k2) :
    jsLookup (jsSet m k v) k2 = jsLookup m k2 := by
  induction m with
  | nil => simp [jsSet, jsLookup, h]
  | cons p rest ih =>
      obtain ⟨key, w⟩ := p
      by_cases hk : key = k
      · subst hk
        simp [jsSet, jsLookup, h]
      · by_cases hk2 : key = k2
        · subst hk2
          simp [jsSet, jsLookup, hk, Ne.symm h]
        · simp [jsSet, jsLookup, hk, hk2, ih]

theorem jsKeys_jsSet_of_mem (m : JsObj α) {k : String} (v : α)
    (h : k ∈ jsKeys m) : jsKeys (jsSet m k v) = jsKeys m := by
  induction m with
  | nil => simp [jsKeys] at h
  | cons p rest ih =>
      obtain ⟨key, w⟩ := p
      by_cases hk : key = k
      · simp [jsSet, jsKeys, hk]
      · simp only [jsKeys, List.map_cons, List.mem_cons] at h
        rcases h with h | h
        · exact absurd h.symm hk
        · have := ih (by simpa [jsKeys] using h)
          simp only [jsKeys] at this
          simp [jsSet, jsKeys, hk, this]

theorem jsSet_of_not_mem (m : JsObj α) {k : String} (v : α)
    (h : k ∉ jsKeys m) : jsSet m k v = m ++ [(k, v)] := by
  induction m with
  | nil => simp [jsSet]
  | cons p rest ih =>
      obtain ⟨key, w⟩ := p
      simp only [jsKeys, List.map_cons, List.mem_cons, not_or] at h
      simp [jsSet, Ne.symm h.1, ih h.2]

theorem mem_jsKeys_jsSet (m : JsObj α) (k a : String) (v : α) :
    a ∈ jsKeys (jsSet m k v) ↔ a = k ∨ a ∈ jsKeys m := by
  by_cases h : k ∈ jsKeys m
  · rw [jsKeys_jsSet_of_mem m v h]
    constructor
    · exact Or.inr
    · rintro (rfl | ha) <;> [exact h; exact ha]
  · rw [jsSet_of_not_mem m v h]
    simp [jsKeys, or_comm]

theorem jsKeys_nodup_jsSet (m : JsObj α) (k : String) (v : α)
    (h : (jsKeys m).Nodup) : (jsKeys (jsSet m k v)).Nodup := by
  by_cases hk : k ∈ jsKeys m
  · rwa [jsKeys_jsSet_of_mem m v hk]
  · rw [jsSet_of_not_mem m v hk]
    simp only [jsKeys, List.map_append, List.map_cons, List.map_nil]
    refine List.Nodup.append h (List.nodup_singleton _) ?_
    intro a ha hb
    rw [List.mem_singleton] at hb
    subst hb
    exact hk ha

theorem mem_jsSet (m : JsObj α) (k : String) (v : α) (p : String × α)
    (h : p ∈ jsSet m k v) : p.2 = v ∨ p ∈ m := by
  induction m with
  | nil =>
      simp only [jsSet, List.mem_singleton] at h
      exact Or.inl (by rw [h])
  | cons q rest ih =>
      obtain ⟨key, w⟩ := q
      by_cases hk : key = k
      · simp only [jsSet, if_pos hk, List.mem_cons] at h
        rcases h with heq | h2
        · exact Or.inl (by rw [heq])
        · exact Or.inr (List.mem_cons_of_mem _ h2)
      · simp only [jsSet, if_neg hk, List.mem_cons] at h
        rcases h with heq | h2
        · exact Or.inr (heq ▸ List.mem_cons_self _ _)
        · rcases ih h2 with hv | hm
          · exact Or.inl hv
          · exact Or.inr (List.mem_cons_of_mem _ hm)

theorem jsLookup_isSome_of_mem (m : JsObj α) {k : String}
    (h : k ∈ jsKeys m) : ∃ v, jsLookup m k = some v := by
  induction m with
  | nil => simp [jsKeys] at h
  | cons p rest ih =>
      obtain ⟨key, w⟩ := p
      by_cases hk : key = k
      · exact ⟨w, by simp [jsLookup, hk]⟩
      · simp only [jsKeys, List.map_cons, List.mem_cons] at h
        rcases h with h | h
        · exact absurd h.symm hk
        · obtain ⟨v, hv⟩ := ih (by simpa [jsKeys] using h)
          exact ⟨v, by simp [jsLookup, hk, hv]⟩

@[simp] theorem jsKeys_mapVals (f : α → β) (m : JsObj α) :
    jsKeys (mapVals f m) = jsKeys m := by
  induction m with
  | nil => rfl
  | cons p rest ih => simp [mapVals, jsKeys] at ih ⊢

theorem jsLookup_mapVals (f : α → β) (m : JsObj α) (k : String) :
    jsLookup (mapVals f m) k = (jsLookup m k).map f := by
  induction m with
  | nil => simp [mapVals, jsLookup]
  | cons p rest ih =>
      obtain ⟨key, w⟩ := p
      by_cases hk : key = k <;> simp [mapVals, jsLookup, hk] <;> exact ih

theorem jsSet_mapVals (f : α → β) (m : JsObj α) (k : String) (v : α) :
    jsSet (mapVals f m) k (f v) = mapVals f (jsSet m k v) := by
  induction m with
  | nil => simp [mapVals, jsSet]
  | cons p rest ih =>
      obtain ⟨key, w⟩ := p
      by_cases hk : key = k <;> simp [mapVals, jsSet, hk] <;> exact ih

end JsObjLemmas

/-! ## Zero-initialization lemmas -/

theorem foldl_jsSet_mapVals (kws : List String) (M : List (String × Nat)) :
    kws.foldl (fun m word => jsSet m word (some 0)) (mapVals some M) =
      mapVals some (kws.foldl (fun m word => jsSet m word 0) M) := by
  induction kws generalizing M with
  | nil => rfl
  | cons w rest ih =>
      simp only [List.foldl_cons]
      rw [jsSet_mapVals, ih]

theorem zeroInit_eq_specZero (kws : List String) :
    zeroInit kws = mapVals some (specZero kws) := by
  have h := foldl_jsSet_mapVals kws []
  simpa [zeroInit, specZero, mapVals] using h

theorem mem_jsKeys_foldl_jsSet (kws : List String) (M : List (String × Nat))
    (k : String) :
    k ∈ jsKeys (kws.foldl (fun m word => jsSet m word 0) M) ↔
      k ∈ jsKeys M ∨ k ∈ kws := by
  induction kws generalizing M with
  | nil => simp
  | cons w rest ih =>
      simp only [List.foldl_cons, List.mem_cons]
      rw [ih]
      rw [mem_jsKeys_jsSet]
      tauto

theorem mem_jsKeys_specZero (kws : List String) (k : String) :
    k ∈ jsKeys (specZero kws) ↔ k ∈ kws := by
  have h := mem_jsKeys_foldl_jsSet kws [] k
  simpa [specZero, jsKeys] using h

theorem nodup_jsKeys_foldl_jsSet (kws : List String) (M : List (String × Nat))
    (h : (jsKeys M).Nodup) :
    (jsKeys (kws.foldl (fun m word => jsSet m word 0) M)).Nodup := by
  induction kws generalizing M with
  | nil => exact h
  | cons w rest ih =>
      simp only [List.foldl_cons]
      exact ih _ (jsKeys_nodup_jsSet M w 0 h)

theorem nodup_jsKeys_specZero (kws : List String) :
    (jsKeys (specZero kws)).Nodup := by
  exact nodup_jsKeys_foldl_jsSet kws [] (by simp [jsKeys])

/-! ## The mapper refines the specified file scan -/

theorem string_eq_empty_iff (s : String) : s = "" ↔ s.data = [] := by
  cases s
  simp [String.ext_iff]

theorem jsToUpper_eq_empty_iff (s : String) : jsToUpper s = "" ↔ s = "" := by
  rw [string_eq_empty_iff, string_eq_empty_iff]
  simp [jsToUpper]

theorem getKey_insensitive_mapVals (w : String) (M : List (String × Nat)) :
    getKey true w (mapVals some M) = lineMatcher true w M := by
  show ((jsKeys (mapVals some M)).filter (fun key => jsToUpper key == jsToUpper w)).head? =
    lineMatcher true w M
  rw [jsKeys_mapVals, List.filter_head?]
  rfl

theorem lineMatcher_insensitive_some {w k : String} {M : List (String × Nat)}
    (h : lineMatcher true w M = some k) :
    k ∈ jsKeys M ∧ jsToUpper k = jsToUpper w := by
  simp only [lineMatcher, if_pos rfl] at h
  refine ⟨List.mem_of_find?_eq_some h, ?_⟩
  have := List.find?_some h
  simpa using this

theorem lineMatcher_sensitive (w : String) (M : List (String × Nat)) :
    lineMatcher false w M = some w := rfl

theorem specScanStep_jsKeys (ic : Bool) (M : List (String × Nat)) (w : String)
    (hw : ic = false → w ≠ "" → w ∈ jsKeys M) :
    jsKeys (specScanStep ic M w) = jsKeys M := by
  unfold specScanStep
  by_cases hempty : w = ""
  · simp [hempty]
  · rw [if_neg hempty]
    cases ic with
    | false =>
        rw [lineMatcher_sensitive]
        show jsKeys (specIncrement M w) = jsKeys M
        unfold specIncrement
        exact jsKeys_jsSet_of_mem M _ (hw rfl hempty)
    | true =>
        cases h : lineMatcher true w M with
        | none => rfl
        | some k =>
            show jsKeys (specIncrement M k) = jsKeys M
            unfold specIncrement
            exact jsKeys_jsSet_of_mem M _ (lineMatcher_insensitive_some h).1

theorem mapperStep_refines (ic : Bool) (M : List (String × Nat)) (w : String)
    (hw : ic = false → w ≠ "" → w ∈ jsKeys M) :
    mapperStep ic (mapVals some M) w = mapVals some (specScanStep ic M w) := by
  by_cases hempty : w = ""
  · simp [mapperStep, specScanStep, hempty]
  · cases ic with
    | false =>
        obtain ⟨n, hn⟩ := jsLookup_isSome_of_mem M (hw rfl hempty)
        have hcode : mapperStep false (mapVals some M) w =
            jsSet (mapVals some M) w (jsAddOne (jsLookup (mapVals some M) w)) := by
          unfold mapperStep
          rw [if_neg hempty]
          have hg : getKey false w (mapVals some M) = some w := rfl
          rw [hg]
          exact if_neg hempty
        have hspec : specScanStep false M w = specIncrement M w := by
          unfold specScanStep
          rw [if_neg hempty, lineMatcher_sensitive]
        rw [hcode, hspec, jsLookup_mapVals, hn]
        show jsSet (mapVals some M) w (some (n + 1)) = mapVals some (specIncrement M w)
        unfold specIncrement
        rw [hn]
        exact jsSet_mapVals some M w (n + 1)
    | true =>
        have hcode : mapperStep true (mapVals some M) w =
            (match lineMatcher true w M with
             | some key =>
                 if key = "" then mapVals some M
                 else jsSet (mapVals some M) key (jsAddOne (jsLookup (mapVals some M) key))
             | none => mapVals some M) := by
          unfold mapperStep
          rw [if_neg hempty, getKey_insensitive_mapVals]
        have hspec : specScanStep true M w =
            (match lineMatcher true w M with
             | some key => specIncrement M key
             | none => M) := by
          unfold specScanStep
          rw [if_neg hempty]
        rw [hcode, hspec]
        cases h : lineMatcher true w M with
        | none => rfl
        | some k =>
            obtain ⟨hkmem, hkup⟩ := lineMatcher_insensitive_some h
            obtain ⟨n, hn⟩ := jsLookup_isSome_of_mem M hkmem
            have hkne : k ≠ "" := by
              intro hk
              apply hempty
              rw [← jsToUpper_eq_empty_iff, ← hkup, hk]
              rfl
            show (if k = "" then mapVals some M
                else jsSet (mapVals some M) k (jsAddOne (jsLookup (mapVals some M) k))) =
              mapVals some (specIncrement M k)
            rw [if_neg hkne, jsLookup_mapVals, hn]
            show jsSet (mapVals some M) k (some (n + 1)) = mapVals some (specIncrement M k)
            unfold specIncrement
            rw [hn]
            exact jsSet_mapVals some M k (n + 1)

theorem mapper_foldl_refines (lines : List String) (M : List (String × Nat))
    (ic : Bool) (hw : ic = false → ∀ w ∈ lines, w ≠ "" → w ∈ jsKeys M) :
    lines.foldl (mapperStep ic) (mapVals some M) =
        mapVals some (lines.foldl (specScanStep ic) M) ∧
      jsKeys (lines.foldl (specScanStep ic) M) = jsKeys M := by
  induction lines generalizing M with
  | nil => exact ⟨rfl, rfl⟩
  | cons w rest ih =>
      have hw1 : ic = false → w ≠ "" → w ∈ jsKeys M := by
        intro hic hne
        exact hw hic w (List.mem_cons_self _ _) hne
      have hkeys := specScanStep_jsKeys ic M w hw1
      have hwrest : ic = false → ∀ x ∈ rest, x ≠ "" → x ∈ jsKeys (specScanStep ic M w) := by
        intro hic x hx hne
        rw [hkeys]
        exact hw hic x (List.mem_cons_of_mem _ hx) hne
      obtain ⟨ih1, ih2⟩ := ih (specScanStep ic M w) hwrest
      refine ⟨?_, by rw [List.foldl_cons, ih2, hkeys]⟩
      rw [List.foldl_cons, List.foldl_cons,
        mapperStep_refines ic M w hw1, ih1]

theorem mapperMap_refines (keywords : List String) (ic : Bool) (data : String)
    (h : CollaboratorOutput keywords ic data) :
    mapperMap keywords ic data = mapVals some (specFreqMap keywords ic data) := by
  unfold mapperMap specFreqMap
  rw [zeroInit_eq_specZero]
  refine (mapper_foldl_refines _ _ _ ?_).1
  intro hic w hwmem hne
  rw [mem_jsKeys_specZero]
  exact h hic w hwmem hne

theorem specFreqMap_jsKeys (keywords : List String) (ic : Bool) (data : String)
    (h : CollaboratorOutput keywords ic data) :
    jsKeys (specFreqMap keywords ic data) = jsKeys (specZero keywords) := by
  unfold specFreqMap
  refine (mapper_foldl_refines _ _ _ ?_).2
  intro hic w hwmem hne
  rw [mem_jsKeys_specZero]
  exact h hic w hwmem hne

/-! ## Directory-scan store lemmas -/

theorem scanJobs_jsKeys (keywords : List String) (ic : Bool)
    (jobs : List (String × String)) :
    ∀ (store : Store),
      (jsKeys store ++ jobs.map (fun j => parseName j.1)).Nodup →
      jsKeys (scanJobs keywords ic store jobs) =
        jsKeys store ++ jobs.map (fun j => parseName j.1) := by
  induction jobs with
  | nil => intro store _; simp [scanJobs]
  | cons j rest ih =>
      intro store h
      simp only [List.map_cons] at h ⊢
      rw [List.append_cons] at h
      have hnotmem : parseName j.1 ∉ jsKeys store := by
        intro hmem
        have h2 := h.of_append_left
        rw [List.nodup_append] at h2
        exact h2.2.2 hmem (List.mem_singleton.mpr rfl)
      simp only [scanJobs, List.foldl_cons]
      have hset : mapperRun keywords ic store j.1 j.2 =
          store ++ [(parseName j.1, mapperMap keywords ic j.2)] := by
        unfold mapperRun
        exact jsSet_of_not_mem store _ hnotmem
      have hkeys2 : jsKeys (store ++ [(parseName j.1, mapperMap keywords ic j.2)]) =
          jsKeys store ++ [parseName j.1] := by
        simp [jsKeys]
      have hrec := ih (store ++ [(parseName j.1, mapperMap keywords ic j.2)])
        (by rw [hkeys2]; exact h)
      simp only [scanJobs] at hrec
      rw [hset, hrec, hkeys2]
      simp

/-! ## Promise.all lemmas -/

theorem promiseAll_first_error {α : Type} (ps1 : List (Except JsError α))
    (e : JsError) (ps2 : List (Except JsError α))
    (h : ∀ p ∈ ps1, ∃ v, p = .ok v) :
    promiseAll (ps1 ++ .error e :: ps2) = .error e := by
  induction ps1 with
  | nil => rfl
  | cons p rest ih =>
      obtain ⟨v, hv⟩ := h p (List.mem_cons_self _ _)
      subst hv
      have hrest := ih (fun q hq => h q (List.mem_cons_of_mem _ hq))
      rw [List.cons_append]
      show (match promiseAll (rest ++ Except.error e :: ps2) with
            | Except.error e => Except.error e
            | Except.ok r => Except.ok (v :: r)) = Except.error e
      rw [hrest]

theorem promiseAll_ok_iff {α : Type} (ps : List (Except JsError α)) :
    (∃ vs, promiseAll ps = .ok vs) ↔ ∀ p ∈ ps, ∃ v, p = .ok v := by
  induction ps with
  | nil => simp [promiseAll]
  | cons p rest ih =>
      constructor
      · rintro ⟨vs, hvs⟩ q hq
        cases p with
        | error e => simp [promiseAll] at hvs
        | ok v =>
            rcases List.mem_cons.mp hq with rfl | hq2
            · exact ⟨v, rfl⟩
            · simp only [promiseAll] at hvs
              cases hrest : promiseAll rest with
              | error e => rw [hrest] at hvs; simp at hvs
              | ok ws => exact (ih.mp ⟨ws, hrest⟩) q hq2
      · intro hall
        obtain ⟨v, hv⟩ := hall p (List.mem_cons_self _ _)
        subst hv
        obtain ⟨ws, hws⟩ := ih.mpr (fun q hq => hall q (List.mem_cons_of_mem _ hq))
        exact ⟨v :: ws, by simp [promiseAll, hws]⟩

/-! ## Round trip of the report serialization: numerals -/

theorem isDigitChar_digitChar (n : Nat) : isDigitChar (digitChar n) = true := by
  unfold digitChar
  split <;> decide

theorem digitChar_toNat_sub (n : Nat) (h : n < 10) :
    (digitChar n).toNat - '0'.toNat = n := by
  interval_cases n <;> decide

theorem natCharsGo_acc (fuel : Nat) :
    ∀ (n : Nat) (acc : List Char),
      natCharsGo fuel n acc = natCharsGo fuel n [] ++ acc := by
  induction fuel with
  | zero => intro n acc; rfl
  | succ f ih =>
      intro n acc
      by_cases h : n < 10
      · simp [natCharsGo, h]
      · simp only [natCharsGo, if_neg h]
        rw [ih (n / 10) (digitChar (n % 10) :: acc), ih (n / 10) [digitChar (n % 10)]]
        simp

theorem natCharsGo_spec (fuel : Nat) :
    ∀ n, n < fuel →
      natCharsGo fuel n [] ≠ [] ∧
        (∀ c ∈ natCharsGo fuel n [], isDigitChar c = true) ∧
        digitsToNat (natCharsGo fuel n []) = n := by
  induction fuel with
  | zero => intro n h; omega
  | succ f ih =>
      intro n hn
      by_cases h : n < 10
      · refine ⟨by simp [natCharsGo, h], ?_, ?_⟩
        · intro c hc
          simp only [natCharsGo, if_pos h, List.mem_singleton] at hc
          subst hc
          exact isDigitChar_digitChar n
        · simp only [natCharsGo, if_pos h]
          show 0 * 10 + ((digitChar n).toNat - '0'.toNat) = n
          rw [digitChar_toNat_sub n h]
          omega
      · have hdiv : n / 10 < f := by
          have h1 : 10 ≤ n := Nat.not_lt.mp h
          have h2 := Nat.div_lt_self (show 0 < n by omega) (show 1 < 10 by omega)
          omega
        obtain ⟨ihne, ihdig, ihval⟩ := ih (n / 10) hdiv
        have hgo : natCharsGo (f + 1) n [] =
            natCharsGo f (n / 10) [] ++ [digitChar (n % 10)] := by
          simp only [natCharsGo, if_neg h]
          exact natCharsGo_acc f (n / 10) [digitChar (n % 10)]
        refine ⟨by rw [hgo]; simp, ?_, ?_⟩
        · intro c hc
          rw [hgo, List.mem_append] at hc
          rcases hc with hc | hc
          · exact ihdig c hc
          · rw [List.mem_singleton] at hc
            subst hc
            exact isDigitChar_digitChar _
        · rw [hgo]
          unfold digitsToNat
          rw [List.foldl_append]
          show digitsToNat (natCharsGo f (n / 10) []) * 10 +
            ((digitChar (n % 10)).toNat - '0'.toNat) = n
          rw [ihval, digitChar_toNat_sub (n % 10) (Nat.mod_lt _ (by omega))]
          omega

theorem natChars_spec (n : Nat) :
    natChars n ≠ [] ∧ (∀ c ∈ natChars n, isDigitChar c = true) ∧
      digitsToNat (natChars n) = n :=
  natCharsGo_spec (n + 1) n (by omega)

theorem takeDigits_append (ds rest : List Char)
    (hds : ∀ c ∈ ds, isDigitChar c = true)
    (hrest : ∀ c, rest.head? = some c → isDigitChar c = false) :
    takeDigits (ds ++ rest) = (ds, rest) := by
  induction ds with
  | nil =>
      rw [List.nil_append]
      cases rest with
      | nil => rfl
      | cons c cs => simp [takeDigits, hrest c rfl]
  | cons d ds ih =>
      have hd := hds d (List.mem_cons_self _ _)
      rw [List.cons_append]
      have hih := ih (fun c hc => hds c (List.mem_cons_of_mem _ hc))
      simp [takeDigits, hd, hih]

theorem parseJVal_render (v : JVal) (rest : List Char)
    (hrest : ∀ c, rest.head? = some c → isDigitChar c = false) :
    parseJVal (renderJVal v ++ rest) = some (v, rest) := by
  cases v with
  | none => rfl
  | some n =>
      obtain ⟨hne, hdig, hval⟩ := natChars_spec n
      obtain ⟨d, ds, hcons⟩ : ∃ d ds, natChars n = d :: ds := by
        cases hnc : natChars n with
        | nil => exact absurd hnc hne
        | cons d ds => exact ⟨d, ds, rfl⟩
      have hd : isDigitChar d = true := hdig d (by rw [hcons]; exact List.mem_cons_self _ _)
      have htake : takeDigits (natChars n ++ rest) = (natChars n, rest) :=
        takeDigits_append _ _ hdig hrest
      show parseJVal (natChars n ++ rest) = some (some n, rest)
      rw [hcons, List.cons_append] at htake ⊢
      rw [parseJVal.eq_def]
      split
      · rename_i r heq
        rw [List.cons.injEq] at heq
        rw [heq.1] at hd
        exact absurd hd (by decide)
      · rw [htake]
        show some (some (digitsToNat (d :: ds)), rest) = some (some n, rest)
        rw [← hcons, hval]

/-! ## Round trip of the report serialization: whitespace and strings -/

theorem skipWs_cons_ws (c : Char) (h : isWsChar c = true) (cs : List Char) :
    skipWs (c :: cs) = skipWs cs := by
  simp [skipWs, h]

theorem skipWs_cons_not (c : Char) (h : isWsChar c = false) (cs : List Char) :
    skipWs (c :: cs) = c :: cs := by
  simp [skipWs, h]

theorem skipWs_append_ws (ws : List Char) (h : ∀ c ∈ ws, isWsChar c = true) :
    ∀ rest : List Char, skipWs (ws ++ rest) = skipWs rest := by
  induction ws with
  | nil => intro rest; rfl
  | cons c cs ih =>
      intro rest
      rw [List.cons_append, skipWs_cons_ws c (h c (List.mem_cons_self _ _))]
      exact ih (fun x hx => h x (List.mem_cons_of_mem _ hx)) rest

theorem hexVal_hexDig (k : Nat) (h : k < 16) : hexVal (hexDig k) = some k := by
  interval_cases k <;> decide

theorem parseStringBody_escapeChar (c : Char) (acc rest : List Char) :
    parseStringBody acc (escapeChar c ++ rest) = parseStringBody (c :: acc) rest := by
  simp only [escapeChar]
  split
  · rfl
  · rfl
  · rfl
  · rfl
  · rfl
  · rfl
  · rfl
  · rename_i h1 h2 h3 h4 h5 h6 h7
    by_cases hlt : c.toNat < 32
    · rw [if_pos hlt]
      have h16a : c.toNat / 16 < 16 := by omega
      have h16b : c.toNat % 16 < 16 := Nat.mod_lt _ (by omega)
      have hhex : hex4 '0' '0' (hexDig (c.toNat / 16)) (hexDig (c.toNat % 16)) =
          some c.toNat := by
        unfold hex4
        rw [hexVal_hexDig _ h16a, hexVal_hexDig _ h16b]
        show some (0 * 4096 + 0 * 256 + c.toNat / 16 * 16 + c.toNat % 16) = some c.toNat
        congr 1
        omega
      show (match hex4 '0' '0' (hexDig (c.toNat / 16)) (hexDig (c.toNat % 16)) with
            | some n => parseStringBody (Char.ofNat n :: acc) rest
            | none => none) = parseStringBody (c :: acc) rest
      rw [hhex]
      show parseStringBody (Char.ofNat c.toNat :: acc) rest = parseStringBody (c :: acc) rest
      rw [Char.ofNat_toNat]
    · rw [if_neg hlt, List.singleton_append, parseStringBody.eq_def]
      split <;> simp_all

theorem parseStringBody_escapeList (cs : List Char) :
    ∀ (acc rest : List Char),
      parseStringBody acc (escapeList cs ++ '"' :: rest) =
        some (String.mk (acc.reverse ++ cs), rest) := by
  induction cs with
  | nil =>
      intro acc rest
      show parseStringBody acc ('"' :: rest) = _
      rw [List.append_nil]
      rfl
  | cons c cs ih =>
      intro acc rest
      show parseStringBody acc ((escapeChar c ++ escapeList cs) ++ '"' :: rest) = _
      rw [List.append_assoc, parseStringBody_escapeChar, ih]
      simp

theorem parseStringBody_renderString (s : String) (rest : List Char) :
    parseStringBody [] (escapeList s.data ++ '"' :: rest) = some (s, rest) := by
  rw [parseStringBody_escapeList]
  show some (String.mk s.data, rest) = some (s, rest)
  cases s
  rfl

/-! ## Round trip of the report serialization: objects -/

theorem renderString_append (k : String) (X : List Char) :
    renderString k ++ X = '"' :: (escapeList k.data ++ ('"' :: X)) := by
  simp [renderString]

theorem renderEntriesTail_length {α : Type} (pad : List Char)
    (rv : α → List Char) (ms : List (String × α)) :
    ms.length ≤ (renderEntriesTail pad rv ms).length := by
  induction ms with
  | nil => simp [renderEntriesTail]
  | cons p rest ih =>
      obtain ⟨k, v⟩ := p
      simp only [renderEntriesTail, List.length_cons, List.length_append]
      omega

theorem renderObj_length {α : Type} (pad closePad : List Char)
    (rv : α → List Char) (ms : List (String × α)) :
    ms.length ≤ (renderObj pad closePad rv ms).length := by
  cases ms with
  | nil => simp [renderObj]
  | cons p rest =>
      obtain ⟨k, v⟩ := p
      have := renderEntriesTail_length pad rv rest
      simp only [renderObj, List.length_cons, List.length_append]
      omega

theorem renderObj_head {α : Type} (pad closePad : List Char)
    (rv : α → List Char) (ms : List (String × α)) :
    ∃ t, renderObj pad closePad rv ms = '{' :: t := by
  cases ms with
  | nil => exact ⟨_, rfl⟩
  | cons p rest =>
      obtain ⟨k, v⟩ := p
      exact ⟨_, rfl⟩

theorem foldl_jsSet_append {α : Type} (ms : List (String × α)) :
    ∀ (acc : JsObj α), (jsKeys acc ++ ms.map Prod.fst).Nodup →
      ms.foldl (fun m p => jsSet m p.1 p.2) acc = acc ++ ms := by
  induction ms with
  | nil => intro acc _; simp
  | cons p rest ih =>
      intro acc h
      obtain ⟨k, v⟩ := p
      simp only [List.map_cons] at h
      rw [List.append_cons] at h
      have hnot : k ∉ jsKeys acc := by
        intro hmem
        have h2 := h.of_append_left
        rw [List.nodup_append] at h2
        exact h2.2.2 hmem (List.mem_singleton.mpr rfl)
      rw [List.foldl_cons]
      show rest.foldl (fun m p => jsSet m p.1 p.2) (jsSet acc k v) = _
      rw [jsSet_of_not_mem acc v hnot]
      have hkeys : jsKeys (acc ++ [(k, v)]) = jsKeys acc ++ [k] := by
        simp [jsKeys]
      rw [ih (acc ++ [(k, v)]) (by rw [hkeys]; exact h)]
      simp

theorem foldl_jsSet_self {α : Type} (ms : List (String × α))
    (h : (ms.map Prod.fst).Nodup) :
    ms.foldl (fun m p => jsSet m p.1 p.2) [] = ms := by
  have := foldl_jsSet_append ms [] (by simpa [jsKeys])
  simpa using this

theorem parseEntries_step_close {α : Type}
    (parseVal : List Char → Option (α × List Char)) (rv : α → List Char)
    (pad : List Char) (hpad : ∀ c ∈ pad, isWsChar c = true)
    (k : String) (v : α) (acc : JsObj α) (f : Nat) (Y r4 : List Char)
    (hv : parseVal (skipWs (rv v ++ Y)) = some (v, Y))
    (hY : skipWs Y = '}' :: r4) :
    parseEntries parseVal (f + 1) acc
        ('\n' :: (pad ++ ('"' :: (escapeList k.data ++
          ('"' :: (':' :: (' ' :: (rv v ++ Y)))))))) =
      some (jsSet acc k v, r4) := by
  have e1 : skipWs ('\n' :: (pad ++ ('"' :: (escapeList k.data ++
      ('"' :: (':' :: (' ' :: (rv v ++ Y)))))))) =
      '"' :: (escapeList k.data ++ ('"' :: (':' :: (' ' :: (rv v ++ Y))))) := by
    rw [skipWs_cons_ws _ (by decide) _, skipWs_append_ws _ hpad _,
      skipWs_cons_not _ (by decide) _]
  have e2 := parseStringBody_renderString k (':' :: (' ' :: (rv v ++ Y)))
  have e3 : skipWs (':' :: (' ' :: (rv v ++ Y))) = ':' :: (' ' :: (rv v ++ Y)) :=
    skipWs_cons_not _ (by decide) _
  have e4 : skipWs (' ' :: (rv v ++ Y)) = skipWs (rv v ++ Y) :=
    skipWs_cons_ws _ (by decide) _
  simp only [parseEntries, e1, e2, e3, e4, hv, hY]

theorem parseEntries_step_comma {α : Type}
    (parseVal : List Char → Option (α × List Char)) (rv : α → List Char)
    (pad : List Char) (hpad : ∀ c ∈ pad, isWsChar c = true)
    (k : String) (v : α) (acc : JsObj α) (f : Nat) (Y r4 : List Char)
    (hv : parseVal (skipWs (rv v ++ Y)) = some (v, Y))
    (hY : skipWs Y = ',' :: r4) :
    parseEntries parseVal (f + 1) acc
        ('\n' :: (pad ++ ('"' :: (escapeList k.data ++
          ('"' :: (':' :: (' ' :: (rv v ++ Y)))))))) =
      parseEntries parseVal f (jsSet acc k v) r4 := by
  have e1 : skipWs ('\n' :: (pad ++ ('"' :: (escapeList k.data ++
      ('"' :: (':' :: (' ' :: (rv v ++ Y)))))))) =
      '"' :: (escapeList k.data ++ ('"' :: (':' :: (' ' :: (rv v ++ Y))))) := by
    rw [skipWs_cons_ws _ (by decide) _, skipWs_append_ws _ hpad _,
      skipWs_cons_not _ (by decide) _]
  have e2 := parseStringBody_renderString k (':' :: (' ' :: (rv v ++ Y)))
  have e3 : skipWs (':' :: (' ' :: (rv v ++ Y))) = ':' :: (' ' :: (rv v ++ Y)) :=
    skipWs_cons_not _ (by decide) _
  have e4 : skipWs (' ' :: (rv v ++ Y)) = skipWs (rv v ++ Y) :=
    skipWs_cons_ws _ (by decide) _
  simp only [parseEntries, e1, e2, e3, e4, hv, hY]

theorem parseEntries_render {α : Type}
    (parseVal : List Char → Option (α × List Char)) (rv : α → List Char)
    (pad closePad : List Char)
    (hpad : ∀ c ∈ pad, isWsChar c = true)
    (hclose : ∀ c ∈ closePad, isWsChar c = true) :
    ∀ (ms : List (String × α)) (k : String) (v : α) (acc : JsObj α)
      (fuel : Nat) (tail : List Char),
      ms.length < fuel →
      (∀ w ∈ (k, v) :: ms, ∀ t : List Char,
        (t.head? = some ',' ∨ t.head? = some '\n') →
        parseVal (skipWs (rv w.2 ++ t)) = some (w.2, t)) →
      parseEntries parseVal fuel acc
          ('\n' :: (pad ++ ('"' :: (escapeList k.data ++ ('"' :: (':' :: (' ' :: (rv v ++
            (renderEntriesTail pad rv ms ++
              ('\n' :: (closePad ++ ('}' :: tail)))))))))))) =
        some (ms.foldl (fun m p => jsSet m p.1 p.2) (jsSet acc k v), tail) := by
  intro ms
  induction ms with
  | nil =>
      intro k v acc fuel tail hfuel hval
      cases fuel with
      | zero => omega
      | succ f =>
          have hv := hval (k, v) (List.mem_cons_self _ _)
            (renderEntriesTail pad rv [] ++ ('\n' :: (closePad ++ ('}' :: tail))))
            (Or.inr rfl)
          have hY : skipWs (renderEntriesTail pad rv [] ++
              ('\n' :: (closePad ++ ('}' :: tail)))) = '}' :: tail := by
            show skipWs ('\n' :: (closePad ++ ('}' :: tail))) = '}' :: tail
            rw [skipWs_cons_ws _ (by decide) _, skipWs_append_ws _ hclose _,
              skipWs_cons_not _ (by decide) _]
          rw [parseEntries_step_close parseVal rv pad hpad k v acc f _ _ hv hY]
          rfl
  | cons p ms2 ih =>
      intro k v acc fuel tail hfuel hval
      obtain ⟨k2, v2⟩ := p
      cases fuel with
      | zero => omega
      | succ f =>
          have hv := hval (k, v) (List.mem_cons_self _ _)
            (renderEntriesTail pad rv ((k2, v2) :: ms2) ++
              ('\n' :: (closePad ++ ('}' :: tail))))
            (Or.inl rfl)
          have hYeq : renderEntriesTail pad rv ((k2, v2) :: ms2) ++
              ('\n' :: (closePad ++ ('}' :: tail))) =
              ',' :: ('\n' :: (pad ++ ('"' :: (escapeList k2.data ++
                ('"' :: (':' :: (' ' :: (rv v2 ++ (renderEntriesTail pad rv ms2 ++
                  ('\n' :: (closePad ++ ('}' :: tail)))))))))))) := by
            simp [renderEntriesTail, renderEntry, renderString, List.append_assoc]
          have hY : skipWs (renderEntriesTail pad rv ((k2, v2) :: ms2) ++
              ('\n' :: (closePad ++ ('}' :: tail)))) =
              ',' :: ('\n' :: (pad ++ ('"' :: (escapeList k2.data ++
                ('"' :: (':' :: (' ' :: (rv v2 ++ (renderEntriesTail pad rv ms2 ++
                  ('\n' :: (closePad ++ ('}' :: tail)))))))))))) := by
            rw [hYeq]
            exact skipWs_cons_not _ (by decide) _
          rw [parseEntries_step_comma parseVal rv pad hpad k v acc f _ _ hv hY]
          rw [ih k2 v2 (jsSet acc k v) f tail (by simp at hfuel; omega)
            (fun w hw => hval w (List.mem_cons_of_mem _ hw))]
          rw [List.foldl_cons]

theorem parseObject_render {α : Type}
    (parseVal : List Char → Option (α × List Char)) (rv : α → List Char)
    (pad closePad : List Char)
    (hpad : ∀ c ∈ pad, isWsChar c = true)
    (hclose : ∀ c ∈ closePad, isWsChar c = true)
    (ms : List (String × α)) (fuel : Nat) (tail : List Char)
    (hfuel : ms.length < fuel)
    (hval : ∀ w ∈ ms, ∀ t : List Char,
      (t.head? = some ',' ∨ t.head? = some '\n') →
      parseVal (skipWs (rv w.2 ++ t)) = some (w.2, t)) :
    parseObject parseVal fuel (renderObj pad closePad rv ms ++ tail) =
      some (ms.foldl (fun m p => jsSet m p.1 p.2) [], tail) := by
  cases ms with
  | nil => rfl
  | cons p ms2 =>
      obtain ⟨k, v⟩ := p
      simp only [renderObj, renderEntry, renderString, List.cons_append,
        List.append_assoc, List.singleton_append, List.nil_append, parseObject,
        skipWs_cons_not '{' (by decide), skipWs_cons_ws '\n' (by decide),
        skipWs_append_ws pad hpad, skipWs_cons_not '"' (by decide)]
      rw [parseEntries_render parseVal rv pad closePad hpad hclose ms2 k v [] fuel tail
        (by simp at hfuel; omega) hval]
      rfl

theorem isWsChar_of_digit (c : Char) (h : isDigitChar c = true) :
    isWsChar c = false := by
  by_contra hws
  rw [Bool.not_eq_false] at hws
  simp only [isWsChar, Bool.or_eq_true, beq_iff_eq] at hws
  rcases hws with ((rfl | rfl) | rfl) | rfl <;> simp [isDigitChar] at h

theorem skipWs_renderJVal (v : JVal) (t : List Char) :
    skipWs (renderJVal v ++ t) = renderJVal v ++ t := by
  cases v with
  | none => exact skipWs_cons_not _ (by decide) _
  | some n =>
      obtain ⟨hne, hdig, _⟩ := natChars_spec n
      obtain ⟨d, ds, hcons⟩ : ∃ d ds, natChars n = d :: ds := by
        cases hnc : natChars n with
        | nil => exact absurd hnc hne
        | cons d ds => exact ⟨d, ds, rfl⟩
      show skipWs (natChars n ++ t) = natChars n ++ t
      rw [hcons, List.cons_append]
      exact skipWs_cons_not _
        (isWsChar_of_digit d (hdig d (by rw [hcons]; exact List.mem_cons_self _ _))) _

theorem parseJVal_sep (v : JVal) (t : List Char)
    (ht : t.head? = some ',' ∨ t.head? = some '\n') :
    parseJVal (skipWs (renderJVal v ++ t)) = some (v, t) := by
  rw [skipWs_renderJVal]
  refine parseJVal_render v t ?_
  intro c hc
  rcases ht with ht | ht <;> rw [ht] at hc <;>
    (injection hc with hc2; rw [← hc2]; decide)

theorem renderObjInner_sep (fm : JsObj JVal) (t : List Char)
    (hkeys : (fm.map Prod.fst).Nodup)
    (ht : t.head? = some ',' ∨ t.head? = some '\n') :
    parseObject parseJVal
        ((skipWs (renderObj (List.replicate 8 ' ') (List.replicate 4 ' ') renderJVal fm ++ t)).length + 1)
        (skipWs (renderObj (List.replicate 8 ' ') (List.replicate 4 ' ') renderJVal fm ++ t)) =
      some (fm, t) := by
  obtain ⟨tl, htl⟩ := renderObj_head (List.replicate 8 ' ') (List.replicate 4 ' ')
    renderJVal fm
  have hskip : skipWs (renderObj (List.replicate 8 ' ') (List.replicate 4 ' ')
      renderJVal fm ++ t) =
      renderObj (List.replicate 8 ' ') (List.replicate 4 ' ') renderJVal fm ++ t := by
    rw [htl, List.cons_append]
    exact skipWs_cons_not _ (by decide) _
  rw [hskip]
  have hlen : fm.length <
      (renderObj (List.replicate 8 ' ') (List.replicate 4 ' ') renderJVal fm ++ t).length + 1 := by
    have h1 := renderObj_length (List.replicate 8 ' ') (List.replicate 4 ' ') renderJVal fm
    rw [List.length_append]
    omega
  rw [parseObject_render parseJVal renderJVal (List.replicate 8 ' ') (List.replicate 4 ' ')
    (by intro c hc; rw [List.eq_of_mem_replicate hc]; rfl)
    (by intro c hc; rw [List.eq_of_mem_replicate hc]; rfl)
    fm _ t hlen
    (fun w _ t2 ht2 => parseJVal_sep w.2 t2 ht2)]
  rw [foldl_jsSet_self fm hkeys]

theorem parseReport_stringifier (store : Store)
    (houter : (store.map Prod.fst).Nodup)
    (hinner : ∀ p ∈ store, ((p.2).map Prod.fst).Nodup) :
    parseReport (stringifier store) = some store := by
  unfold parseReport stringifier renderReport
  show (match parseObject
      (fun cs => parseObject parseJVal (cs.length + 1) cs)
      ((renderObj (List.replicate 4 ' ') []
        (fun fm => renderObj (List.replicate 8 ' ') (List.replicate 4 ' ') renderJVal fm)
        store).length + 1)
      (renderObj (List.replicate 4 ' ') []
        (fun fm => renderObj (List.replicate 8 ' ') (List.replicate 4 ' ') renderJVal fm)
        store) with
    | some (st, rest) => if skipWs rest = [] then some st else none
    | none => none) = some store
  have hlen : store.length <
      (renderObj (List.replicate 4 ' ') []
        (fun fm => renderObj (List.replicate 8 ' ') (List.replicate 4 ' ') renderJVal fm)
        store).length + 1 := by
    have := renderObj_length (List.replicate 4 ' ') []
      (fun fm => renderObj (List.replicate 8 ' ') (List.replicate 4 ' ') renderJVal fm) store
    omega
  have hmain := parseObject_render
    (fun cs => parseObject parseJVal (cs.length + 1) cs)
    (fun fm => renderObj (List.replicate 8 ' ') (List.replicate 4 ' ') renderJVal fm)
    (List.replicate 4 ' ') []
    (by intro c hc; rw [List.eq_of_mem_replicate hc]; rfl)
    (by intro c hc; simp at hc)
    store _ [] hlen
    (fun w hw t2 ht2 => renderObjInner_sep w.2 t2 (hinner w hw) ht2)
  rw [List.append_nil] at hmain
  rw [hmain, foldl_jsSet_self store houter]
  rfl

/-! ## The specified properties -/

/-- C1: for every file scan, the frequency map produced by `mapper` for the
filtering collaborator's output is exactly the spec's FileScanner process:
zero-initialize one entry per configured keyword, then for each non-empty
line of the output split on newline resolve it to a map key via LineMatcher
and increment that key's count by exactly one, skipping unresolved lines
silently with no error (the code's JS number cells are the spec's natural
counts wrapped in `some`). -/
theorem mapper_is_specified_file_scan (keywords : List String)
    (ignoreCase : Bool) (data : String)
    (h : CollaboratorOutput keywords ignoreCase data) :
    mapperMap keywords ignoreCase data =
      mapVals some (specFreqMap keywords ignoreCase data) :=
  mapperMap_refines keywords ignoreCase data h

/-- Witness for C1 at a concrete scan. -/
theorem mapper_is_specified_file_scan_witness :
    CollaboratorOutput ["foo", "bar"] false "foo\nbar\nfoo" ∧
      mapperMap ["foo", "bar"] false "foo\nbar\nfoo" =
        mapVals some (specFreqMap ["foo", "bar"] false "foo\nbar\nfoo") :=
  ⟨by intro hic; decide,
    mapper_is_specified_file_scan ["foo", "bar"] false "foo\nbar\nfoo"
      (by intro hic; decide)⟩

/-- C2: for every keyword set, case mode and collaborator output, the
frequency map built by `mapper` has exactly one entry per member of the
keyword set (its keys are the keyword set up to membership and carry no
duplicates) and every value in it is a non-negative integer (`some n` with
`n : Nat`, never the `NaN` cell). -/
theorem mapper_freq_map_invariant (keywords : List String)
    (ignoreCase : Bool) (data : String)
    (h : CollaboratorOutput keywords ignoreCase data) :
    (∀ k, k ∈ jsKeys (mapperMap keywords ignoreCase data) ↔ k ∈ keywords) ∧
      (jsKeys (mapperMap keywords ignoreCase data)).Nodup ∧
      ∀ p ∈ mapperMap keywords ignoreCase data, ∃ n : Nat, p.2 = some n := by
  rw [mapperMap_refines keywords ignoreCase data h]
  refine ⟨?_, ?_, ?_⟩
  · intro k
    rw [jsKeys_mapVals, specFreqMap_jsKeys keywords ignoreCase data h,
      mem_jsKeys_specZero]
  · rw [jsKeys_mapVals, specFreqMap_jsKeys keywords ignoreCase data h]
    exact nodup_jsKeys_specZero keywords
  · intro p hp
    unfold mapVals at hp
    obtain ⟨q, _, rfl⟩ := List.mem_map.mp hp
    exact ⟨q.2, rfl⟩

/-- Witness for C2 at a concrete scan. -/
theorem mapper_freq_map_invariant_witness :
    CollaboratorOutput ["Alice", "mad"] false "mad\nAlice\nmad" ∧
      ((∀ k, k ∈ jsKeys (mapperMap ["Alice", "mad"] false "mad\nAlice\nmad") ↔
          k ∈ ["Alice", "mad"]) ∧
        (jsKeys (mapperMap ["Alice", "mad"] false "mad\nAlice\nmad")).Nodup ∧
        ∀ p ∈ mapperMap ["Alice", "mad"] false "mad\nAlice\nmad",
          ∃ n : Nat, p.2 = some n) :=
  ⟨by intro hic; decide,
    mapper_freq_map_invariant ["Alice", "mad"] false "mad\nAlice\nmad"
      (by intro hic; decide)⟩

/-- C3: in case-insensitive mode `getKey` returns exactly the first key of
the map in iteration order whose uppercase form equals the word's uppercase
form, and no match when no key qualifies; in particular, with keyword
`"FOO"` configured and input line `"foo"` the `"FOO"` entry is matched and
incremented. -/
theorem getKey_insensitive_first_match (word : String) (m : JsObj JVal) :
    (∀ k, getKey true word m = some k ↔
        jsToUpper k = jsToUpper word ∧
          ∃ pre post, jsKeys m = pre ++ k :: post ∧
            ∀ k2 ∈ pre, jsToUpper k2 ≠ jsToUpper word) ∧
      (getKey true word m = none ↔
        ∀ k ∈ jsKeys m, jsToUpper k ≠ jsToUpper word) ∧
      mapperMap ["FOO"] true "foo" = [("FOO", some 1)] := by
  have hg : getKey true word m =
      (jsKeys m).find? (fun k => jsToUpper k == jsToUpper word) := by
    show ((jsKeys m).filter (fun k => jsToUpper k == jsToUpper word)).head? = _
    rw [List.filter_head?]
  refine ⟨?_, ?_, by rfl⟩
  · intro k
    rw [hg, List.find?_eq_some]
    constructor
    · rintro ⟨hb, as, bs, heq, hall⟩
      exact ⟨by simpa using hb, as, bs, heq,
        fun k2 hk2 => by simpa using hall k2 hk2⟩
    · rintro ⟨hup, pre, post, heq, hall⟩
      exact ⟨by simpa using hup, pre, post, heq,
        fun a ha => by simpa using hall a ha⟩
  · rw [hg, List.find?_eq_none]
    constructor
    · intro hnone k hk
      simpa using hnone k hk
    · intro hall k hk
      simpa using hall k hk

/-- C4: a completed file scan stores its frequency map in the shared
results store under the file's extension-stripped base name, overwriting
any prior entry under that key; and a directory scan over files with
distinct base names leaves the store with exactly one key per base name. -/
theorem results_store_registration :
    (∀ (keywords : List String) (ignoreCase : Bool) (store : Store)
        (file data : String),
        jsLookup (mapperRun keywords ignoreCase store file data)
            (parseName file) =
          some (mapperMap keywords ignoreCase data)) ∧
      ∀ (keywords : List String) (ignoreCase : Bool)
        (jobs : List (String × String)),
        (jobs.map (fun j => parseName j.1)).Nodup →
        jsKeys (scanJobs keywords ignoreCase [] jobs) =
          jobs.map (fun j => parseName j.1) := by
  constructor
  · intro keywords ignoreCase store file data
    exact jsLookup_jsSet_self store (parseName file) _
  · intro keywords ignoreCase jobs h
    have := scanJobs_jsKeys keywords ignoreCase jobs [] (by simpa [jsKeys])
    simpa [jsKeys] using this

/-- Witness for C4 at a two-file directory scan. -/
theorem results_store_registration_witness :
    (([("a.txt", "x"), ("b.txt", "y")].map
        (fun j : String × String => parseName j.1)).Nodup) ∧
      jsKeys (scanJobs ["foo"] false [] [("a.txt", "x"), ("b.txt", "y")]) =
        [("a.txt", "x"), ("b.txt", "y")].map
          (fun j : String × String => parseName j.1) :=
  ⟨by decide,
    results_store_registration.2 ["foo"] false [("a.txt", "x"), ("b.txt", "y")]
      (by decide)⟩

/-- C5: keyword resolution fails with `MissingInputError` when no keyword
specification is given, independent of any filesystem state (no I/O is
consulted); fails with `EmptyFileError` when the keyword file exists but
its contents are empty; and resolves a literal array with exactly that
array unchanged. -/
theorem getKeywords_resolution :
    (∀ (keyName : String) (readFile : String → Except JsError String)
        (parseJson : String → String → Except JsError (List String)),
        getKeywords (.pathStr "") keyName readFile parseJson =
          .error .missingInput) ∧
      (∀ (arr : List String) (keyName : String)
          (readFile : String → Except JsError String)
          (parseJson : String → String → Except JsError (List String)),
        getKeywords (.arr arr) keyName readFile parseJson = .ok arr) ∧
      ∀ (path keyName : String) (readFile : String → Except JsError String)
        (parseJson : String → String → Except JsError (List String)),
        path ≠ "" → readFile path = .ok "" →
        getKeywords (.pathStr path) keyName readFile parseJson =
          .error .emptyFile := by
  refine ⟨fun _ _ _ => rfl, fun _ _ _ _ => rfl, ?_⟩
  intro path keyName readFile parseJson hne hread
  show (if path = "" then Except.error JsError.missingInput
      else
        match readFile path with
        | Except.error e => Except.error e
        | Except.ok data =>
            if data = "" then Except.error JsError.emptyFile
            else parseJson data keyName) = Except.error JsError.emptyFile
  rw [if_neg hne, hread]
  rfl

/-- Witness for C5 at a concrete empty keyword file. -/
theorem getKeywords_resolution_witness :
    ("keywords.json" ≠ "" ∧
        (fun _ : String => (Except.ok "" : Except JsError String))
            "keywords.json" = .ok "") ∧
      getKeywords (.pathStr "keywords.json") "keywords"
          (fun _ => Except.ok "") (fun _ _ => Except.ok []) =
        .error .emptyFile :=
  ⟨⟨by decide, rfl⟩,
    getKeywords_resolution.2.2 "keywords.json" "keywords"
      (fun _ => Except.ok "") (fun _ _ => Except.ok []) (by decide) rfl⟩

/-- C6: a directory scan rejects with the `NotFoundError` of a failed
directory listing, it resolves exactly when every entry's scan resolves,
and when the entries before a failing one all resolve the first failure is
the error that propagates to the caller. -/
theorem grepDir_failure_semantics :
    (∀ (msg : String) (scan : String → Except JsError Unit),
        grepDirOutcome (.error (.notFound msg)) scan =
          .error (.notFound msg)) ∧
      (∀ (files : List String) (scan : String → Except JsError Unit),
        grepDirOutcome (.ok files) scan = .ok () ↔
          ∀ f ∈ files, scan f = .ok ()) ∧
      ∀ (files1 : List String) (f : String) (files2 : List String)
        (scan : String → Except JsError Unit) (e : JsError),
        (∀ g ∈ files1, scan g = .ok ()) → scan f = .error e →
        grepDirOutcome (.ok (files1 ++ f :: files2)) scan = .error e := by
  refine ⟨fun _ _ => rfl, ?_, ?_⟩
  · intro files scan
    constructor
    · intro h f hf
      have h2 : (match promiseAll (files.map scan) with
          | Except.error e => Except.error e
          | Except.ok _ => Except.ok ()) = Except.ok () := h
      cases hall : promiseAll (files.map scan) with
      | error e => rw [hall] at h2; simp at h2
      | ok vs =>
          obtain ⟨u, hu⟩ := (promiseAll_ok_iff (files.map scan)).mp ⟨vs, hall⟩
            (scan f) (List.mem_map_of_mem scan hf)
          cases u
          exact hu
    · intro h
      obtain ⟨vs, hvs⟩ := (promiseAll_ok_iff (files.map scan)).mpr
        (by intro p hp
            obtain ⟨f, hf, rfl⟩ := List.mem_map.mp hp
            exact ⟨(), h f hf⟩)
      show (match promiseAll (files.map scan) with
          | Except.error e => Except.error e
          | Except.ok _ => Except.ok ()) = Except.ok ()
      rw [hvs]
  · intro files1 f files2 scan e h1 h2
    have herr : promiseAll (((files1 ++ f :: files2)).map scan) = .error e := by
      rw [List.map_append, List.map_cons, h2]
      refine promiseAll_first_error _ e _ ?_
      intro p hp
      obtain ⟨g, hg, rfl⟩ := List.mem_map.mp hp
      exact ⟨(), h1 g hg⟩
    show (match promiseAll ((files1 ++ f :: files2).map scan) with
        | Except.error e => Except.error e
        | Except.ok _ => Except.ok ()) = Except.error e
    rw [herr]

/-- Witness for C6: the second entry of a two-entry directory fails and its
error is the directory scan's outcome. -/
theorem grepDir_failure_semantics_witness :
    ((∀ g ∈ ["a"],
        (fun s => if s = "b" then Except.error (JsError.scanError "boom")
          else Except.ok ()) g = Except.ok ()) ∧
      (fun s => if s = "b" then Except.error (JsError.scanError "boom")
          else Except.ok ()) "b" = Except.error (JsError.scanError "boom")) ∧
      grepDirOutcome (.ok (["a"] ++ "b" :: []))
          (fun s => if s = "b" then Except.error (JsError.scanError "boom")
            else Except.ok ()) =
        .error (.scanError "boom") :=
  ⟨⟨by intro g hg; rw [List.mem_singleton] at hg; subst hg; rfl, rfl⟩,
    grepDir_failure_semantics.2.2 ["a"] "b" []
      (fun s => if s = "b" then Except.error (JsError.scanError "boom")
        else Except.ok ())
      (JsError.scanError "boom")
      (by intro g hg; rw [List.mem_singleton] at hg; subst hg; rfl) rfl⟩

/-- C7: when the line-filtering collaborator reports an error for a file,
that file's scan rejects with the `ScanError` and the results store is left
exactly as it was — in particular the file's base-name key holds whatever
it held before (no partial state is written). -/
theorem grepFile_error_writes_nothing (keywords : List String)
    (ignoreCase : Bool) (store : Store) (file msg : String) :
    grepFileRun keywords ignoreCase store file (.error (.scanError msg)) =
        (store, .error (.scanError msg)) ∧
      jsLookup (grepFileRun keywords ignoreCase store file
          (.error (.scanError msg))).1 (parseName file) =
        jsLookup store (parseName file) :=
  ⟨rfl, rfl⟩

/-- C8: serializing a results store through `stringifier`
(`JSON.stringify(·, null, 4)`) and parsing the text back yields a structure
with exactly the original keys and counts.  The hypotheses scope the
statement to genuine stores: JS objects carry no duplicate keys, and every
cell is an actual count (`some n`), not `NaN`. -/
theorem report_serialization_roundtrip (store : Store)
    (houter : (store.map Prod.fst).Nodup)
    (hinner : ∀ p ∈ store, ((p.2).map Prod.fst).Nodup)
    (hcounts : ∀ p ∈ store, ∀ q ∈ p.2, (q.2).isSome = true) :
    parseReport (stringifier store) = some store :=
  parseReport_stringifier store houter hinner

/-- Witness for C8 at a concrete two-file store. -/
theorem report_serialization_roundtrip_witness :
    ((([("foo", [("Alice", some 2), ("mad", some 0)]), ("bar", [])] :
          Store).map Prod.fst).Nodup ∧
      (∀ p ∈ ([("foo", [("Alice", some 2), ("mad", some 0)]), ("bar", [])] :
          Store), ((p.2).map Prod.fst).Nodup) ∧
      ∀ p ∈ ([("foo", [("Alice", some 2), ("mad", some 0)]), ("bar", [])] :
          Store), ∀ q ∈ p.2, (q.2).isSome = true) ∧
      parseReport (stringifier
          [("foo", [("Alice", some 2), ("mad", some 0)]), ("bar", [])]) =
        some [("foo", [("Alice", some 2), ("mad", some 0)]), ("bar", [])] :=
  ⟨⟨by decide, by decide, by decide⟩,
    report_serialization_roundtrip
      [("foo", [("Alice", some 2), ("mad", some 0)]), ("bar", [])]
      (by decide) (by decide) (by decide)⟩

/-- C9: when the target exists but is neither a regular file nor a
directory under `lstat`, `analyze` scans nothing — whatever the file and
directory scan behaviors are — and resolves successfully with the empty
results store rather than raising any error. -/
theorem analyze_other_resolves_empty (keywords : List String)
    (runFile runDir : List String → Store → Store × Except JsError Unit) :
    analyze (.ok .other) (.ok keywords) runFile runDir = .ok [] := rfl

/-- C10: output-path preparation always resolves — every `mkdirp` or
`fs.open` failure is caught and logged — and consequently the grep stage of
a file scan runs with the same outcome whatever those two results were, so
a preparation failure never fails (or hangs) the scan. -/
theorem prepOutputPath_always_resolves
    (mkdirpResult openResult : Except JsError Unit) (keywords : List String)
    (ignoreCase : Bool) (store : Store) (file : String)
    (grepResult : Except JsError String) :
    prepOutputPath mkdirpResult openResult = .ok () ∧
      grepFile keywords ignoreCase mkdirpResult openResult store file
          grepResult =
        some (grepFileRun keywords ignoreCase store file grepResult) := by
  cases mkdirpResult with
  | error e => exact ⟨rfl, rfl⟩
  | ok u =>
      cases openResult with
      | error e => exact ⟨rfl, rfl⟩
      | ok w => exact ⟨rfl, rfl⟩

end KeywordCount

